import Mathlib

/-!
# Verification of the meta-media-search vector core

Shallow embedding of the Rust sources `src/rust-wasm/src/vector_search.rs`,
`src/rust-wasm/src/wasm_bindings.rs`, `src/rust-wasm/src/embeddings.rs` and
`src/mobile-wasm/mobile-core.rs`.

Modelling conventions:
* `f32`/`f64` values are modelled as exact rationals (`ℚ`) wherever the claims
  under consideration concern structure (lengths, branching, ordering, error
  propagation) or where every operation of interest is exact.
* `f32::sqrt` is not expressible inside `ℚ`; every definition that calls it
  takes the square-root function as an explicit parameter `sq : ℚ → ℚ`.
  Theorems that depend on the value of a square root hypothesise its defining
  property (`r * r = input`, `0 ≤ r`) instead.
* The pooling and statistics code of `embeddings.rs` manipulates IEEE special
  values (`NaN`, `±∞`); it is embedded over an extended domain `EFloat` that
  carries those values explicitly, further below.
* Rust `Result<T, JsValue>` becomes `Except String T`; `&mut self` methods
  return the updated state next to the `Except` value, so that "state is
  unchanged on failure" is a meaningful statement.
-/

/-- `DistanceMetric` of `vector_search.rs`: the four supported metrics. -/
inductive DistanceMetric where
  | Cosine
  | Euclidean
  | Manhattan
  | DotProduct
deriving DecidableEq, Repr

/-- `SearchResult` of `vector_search.rs`: vector id and similarity score. -/
structure SearchResult where
  id : ℕ
  score : ℚ
deriving DecidableEq, Repr

/-- `VectorIndex` of `vector_search.rs` (the `normalized` field of the Rust
struct is never read anywhere in the source and is omitted). -/
structure VectorIndex where
  vectors : List (List ℚ)
  dimension : ℕ
  metric : DistanceMetric
deriving DecidableEq, Repr

/-- `dot_product`: `a.iter().zip(b.iter()).map(|(x, y)| x * y).sum()`. -/
def dot_product (a b : List ℚ) : ℚ :=
  (List.zipWith (fun x y => x * y) a b).sum

/-- `cosine_similarity`: just the dot product (inputs assumed normalized). -/
def cosine_similarity (a b : List ℚ) : ℚ :=
  dot_product a b

/-- `euclidean_distance`: square root of the summed squared differences; the
square root is the explicit parameter `sq`. -/
def euclidean_distance (sq : ℚ → ℚ) (a b : List ℚ) : ℚ :=
  sq (List.zipWith (fun x y => (x - y) * (x - y)) a b).sum

/-- `manhattan_distance`: sum of absolute differences. -/
def manhattan_distance (a b : List ℚ) : ℚ :=
  (List.zipWith (fun x y => |x - y|) a b).sum

/-- Sum of squared components, `vec.iter().map(|x| x * x).sum()`, as used by
`normalize_vector`. -/
def sumSq (v : List ℚ) : ℚ :=
  (v.map (fun x => x * x)).sum

/-- `normalize_vector` of `vector_search.rs`: divide every component by the
norm `sq (sumSq v)` when that norm is positive, otherwise leave the vector
unchanged. -/
def normalize_vector (sq : ℚ → ℚ) (v : List ℚ) : List ℚ :=
  let norm := sq (sumSq v)
  if 0 < norm then v.map (fun x => x / norm) else v

/-- `VectorIndex::compute_similarity`: dispatch on the metric. -/
def compute_similarity (sq : ℚ → ℚ) (metric : DistanceMetric) (a b : List ℚ) : ℚ :=
  match metric with
  | .Cosine => cosine_similarity a b
  | .Euclidean => euclidean_distance sq a b
  | .Manhattan => manhattan_distance a b
  | .DotProduct => dot_product a b

/-- `VectorIndex::new`. -/
def VectorIndex.new (dimension : ℕ) (metric : DistanceMetric) : VectorIndex :=
  { vectors := [], dimension := dimension, metric := metric }

/-- `VectorIndex::add_vector`: reject a vector of the wrong length, normalize
the stored copy when the metric is cosine, push, return the new id.  The pair
carries the updated index next to the Rust `Result`. -/
def VectorIndex.add_vector (sq : ℚ → ℚ) (idx : VectorIndex) (v : List ℚ) :
    VectorIndex × Except String ℕ :=
  if v.length ≠ idx.dimension then
    (idx, .error "Vector dimension mismatch")
  else
    let vec := if idx.metric = DistanceMetric.Cosine then normalize_vector sq v else v
    ({ idx with vectors := idx.vectors ++ [vec] }, .ok idx.vectors.length)

/-- The `i`-th length-`dim` slice `&vectors[i*dim..i*dim+dim]` of a flat
buffer, for `i < count`, as a list of rows. -/
def chunksOf (dim : ℕ) (flat : List ℚ) (count : ℕ) : List (List ℚ) :=
  (List.range count).map (fun i => (flat.drop (i * dim)).take dim)

/-- The loop body of `add_vectors_batch`: add each slice in order, stopping at
the first error (the `?` operator). -/
def addLoop (sq : ℚ → ℚ) : VectorIndex → List (List ℚ) → VectorIndex × Except String Unit
  | idx, [] => (idx, .ok ())
  | idx, v :: rest =>
    match VectorIndex.add_vector sq idx v with
    | (idx', .ok _) => addLoop sq idx' rest
    | (idx', .error e) => (idx', .error e)

/-- `VectorIndex::add_vectors_batch`: validate the flat length upfront, then
run `add_vector` on each of the `count` slices in order. -/
def VectorIndex.add_vectors_batch (sq : ℚ → ℚ) (idx : VectorIndex)
    (flat : List ℚ) (count : ℕ) : VectorIndex × Except String Unit :=
  if flat.length ≠ count * idx.dimension then
    (idx, .error "Invalid batch size")
  else
    addLoop sq idx (chunksOf idx.dimension flat count)

/-- `true` exactly for the metrics sorted by descending score
(`matches!(metric, Cosine | DotProduct)` in `search`). -/
def searchReverse : DistanceMetric → Bool
  | .Cosine => true
  | .DotProduct => true
  | .Euclidean => false
  | .Manhattan => false

/-- The comparator passed to `sort_by` in `search`, as the "may stay before"
boolean relation: `a` may precede `b` iff the comparator does not order `a`
strictly after `b`.  Over exact rationals `partial_cmp` is total, so this is
`b.score ≤ a.score` in the descending case and `a.score ≤ b.score` otherwise. -/
def searchLE (reverse : Bool) (a b : SearchResult) : Bool :=
  if reverse then decide (b.score ≤ a.score) else decide (a.score ≤ b.score)

/-- `VectorIndex::search`: dimension check, empty-index early return, cosine
normalization of a private copy of the query, scoring of every stored vector,
stable sort (`Vec::sort_by` is a stable sort) and truncation to
`min k (length of results)`. -/
def VectorIndex.search (sq : ℚ → ℚ) (idx : VectorIndex) (query : List ℚ) (k : ℕ) :
    Except String (List SearchResult) :=
  if query.length ≠ idx.dimension then
    .error "Query dimension mismatch"
  else if idx.vectors.isEmpty then
    .ok []
  else
    let query_vec := if idx.metric = DistanceMetric.Cosine
      then normalize_vector sq query else query
    let results := idx.vectors.enum.map
      (fun p => SearchResult.mk p.1 (compute_similarity sq idx.metric query_vec p.2))
    let sorted := results.mergeSort (searchLE (searchReverse idx.metric))
    .ok (sorted.take (min k sorted.length))

/-- `VectorIndex::size`. -/
def VectorIndex.size (idx : VectorIndex) : ℕ := idx.vectors.length

/-- `CompressedVectorStore` of `wasm_bindings.rs`: a flat byte buffer of
quantized components plus dimension, count and the (informational)
compression factor. -/
structure CompressedVectorStore where
  vectors : List ℕ
  dimension : ℕ
  count : ℕ
  compression_factor : ℕ
deriving DecidableEq, Repr

/-- The quantization of one component in `CompressedVectorStore::add`:
`((val.clamp(-1.0, 1.0) + 1.0) * 127.5) as u8`.  The `as u8` cast truncates
toward zero; on the clamped range the value lies in `[0, 255]`, so the cast
is the floor. -/
def quantizeByte (x : ℚ) : ℕ :=
  (⌊(min 1 (max (-1) x) + 1) * (255 / 2 : ℚ)⌋).toNat

/-- The dequantization of one byte in `CompressedVectorStore::get`:
`(b as f32 / 127.5) - 1.0`. -/
def dequantizeByte (b : ℕ) : ℚ :=
  (b : ℚ) / (255 / 2) - 1

/-- `CompressedVectorStore::new`: empty buffer, zero count, compression factor
clamped to `[1, 8]`. -/
def CompressedVectorStore.new (dimension : ℕ) (compression_factor : ℕ) :
    CompressedVectorStore :=
  { vectors := [], dimension := dimension, count := 0,
    compression_factor := min (max compression_factor 1) 8 }

/-- `CompressedVectorStore::add`: reject wrong lengths, else append the
quantized bytes and increment the count. -/
def CompressedVectorStore.add (s : CompressedVectorStore) (v : List ℚ) :
    CompressedVectorStore × Except String Unit :=
  if v.length ≠ s.dimension then
    (s, .error "Vector dimension mismatch")
  else
    ({ s with vectors := s.vectors ++ v.map quantizeByte, count := s.count + 1 },
      .ok ())

/-- `CompressedVectorStore::get`: bounds check, then dequantize the slice
`&vectors[id*dimension..(id+1)*dimension]`. -/
def CompressedVectorStore.get (s : CompressedVectorStore) (id : ℕ) :
    Except String (List ℚ) :=
  if s.count ≤ id then
    .error "Index out of bounds"
  else
    .ok (((s.vectors.drop (id * s.dimension)).take s.dimension).map dequantizeByte)

/-- `CompressedVectorStore::memory_usage`: the buffer length. -/
def CompressedVectorStore.memory_usage (s : CompressedVectorStore) : ℕ :=
  s.vectors.length

/-- `CompressedVectorStore::count` (the getter). -/
def CompressedVectorStore.countv (s : CompressedVectorStore) : ℕ :=
  s.count

/-- The buffer invariant of the compressed store. -/
def StoreInv (s : CompressedVectorStore) : Prop :=
  s.vectors.length = s.count * s.dimension


/-- Extended value domain for the `embeddings.rs` code, whose arithmetic
produces and consumes IEEE special values: a finite rational, `NaN`, `+∞` or
`-∞`.  Signed zero and rounding are not modelled; finite arithmetic is
exact. -/
inductive EFloat where
  | nan
  | inf
  | neginf
  | fin (q : ℚ)
deriving DecidableEq, Repr

/-- IEEE addition on the extended domain. -/
def addE : EFloat → EFloat → EFloat
  | .nan, _ => .nan
  | _, .nan => .nan
  | .inf, .neginf => .nan
  | .neginf, .inf => .nan
  | .inf, _ => .inf
  | _, .inf => .inf
  | .neginf, _ => .neginf
  | _, .neginf => .neginf
  | .fin a, .fin b => .fin (a + b)

/-- IEEE subtraction on the extended domain. -/
def subE : EFloat → EFloat → EFloat
  | .nan, _ => .nan
  | _, .nan => .nan
  | .inf, .inf => .nan
  | .neginf, .neginf => .nan
  | .inf, _ => .inf
  | _, .inf => .neginf
  | .neginf, _ => .neginf
  | _, .neginf => .inf
  | .fin a, .fin b => .fin (a - b)

/-- IEEE multiplication on the extended domain (`0 * ±∞ = NaN`). -/
def mulE : EFloat → EFloat → EFloat
  | .nan, _ => .nan
  | _, .nan => .nan
  | .inf, .inf => .inf
  | .inf, .neginf => .neginf
  | .neginf, .inf => .neginf
  | .neginf, .neginf => .inf
  | .inf, .fin b => if b = 0 then .nan else if 0 < b then .inf else .neginf
  | .fin a, .inf => if a = 0 then .nan else if 0 < a then .inf else .neginf
  | .neginf, .fin b => if b = 0 then .nan else if 0 < b then .neginf else .inf
  | .fin a, .neginf => if a = 0 then .nan else if 0 < a then .neginf else .inf
  | .fin a, .fin b => .fin (a * b)

/-- IEEE division on the extended domain (`0/0 = ∞/∞ = NaN`, `x/0 = ±∞` for
`x ≠ 0`, `finite/∞ = 0`; signed zero ignored). -/
def divE : EFloat → EFloat → EFloat
  | .nan, _ => .nan
  | _, .nan => .nan
  | .inf, .inf => .nan
  | .inf, .neginf => .nan
  | .neginf, .inf => .nan
  | .neginf, .neginf => .nan
  | .inf, .fin b => if 0 ≤ b then .inf else .neginf
  | .neginf, .fin b => if 0 ≤ b then .neginf else .inf
  | .fin _, .inf => .fin 0
  | .fin _, .neginf => .fin 0
  | .fin a, .fin b =>
    if b = 0 then (if a = 0 then .nan else if 0 < a then .inf else .neginf)
    else .fin (a / b)

/-- `f32::max`: ignores a `NaN` argument, returns the larger otherwise. -/
def maxE : EFloat → EFloat → EFloat
  | .nan, b => b
  | a, .nan => a
  | .inf, _ => .inf
  | _, .inf => .inf
  | .neginf, b => b
  | a, .neginf => a
  | .fin a, .fin b => .fin (max a b)

/-- `f32::min`: ignores a `NaN` argument, returns the smaller otherwise. -/
def minE : EFloat → EFloat → EFloat
  | .nan, b => b
  | a, .nan => a
  | .neginf, _ => .neginf
  | _, .neginf => .neginf
  | .inf, b => b
  | a, .inf => a
  | .fin a, .fin b => .fin (min a b)

/-- IEEE strict less-than (`NaN` compares false against everything). -/
def ltE : EFloat → EFloat → Bool
  | .nan, _ => false
  | _, .nan => false
  | .inf, _ => false
  | _, .inf => true
  | .neginf, .neginf => false
  | .neginf, _ => true
  | _, .neginf => false
  | .fin a, .fin b => decide (a < b)

/-- IEEE square root on the extended domain; the value on positive finite
inputs is the abstract parameter `sq` (see the header). -/
def sqrtE (sq : ℚ → ℚ) : EFloat → EFloat
  | .nan => .nan
  | .inf => .inf
  | .neginf => .nan
  | .fin q => if q < 0 then .nan else .fin (sq q)

/-- `iter().sum()` over the extended domain: left fold of addition from
`0.0`. -/
def sumE (l : List EFloat) : EFloat :=
  l.foldl addE (.fin 0)

/-- `normalize_vector` as invoked from `embeddings.rs`, over the extended
domain: same code as the rational version above. -/
def normalizeVectorE (sq : ℚ → ℚ) (v : List EFloat) : List EFloat :=
  let norm := sqrtE sq (sumE (v.map (fun x => mulE x x)))
  if ltE (.fin 0) norm then v.map (fun x => divE x norm) else v

/-- `PoolingStrategy` of `embeddings.rs`. -/
inductive PoolingStrategy where
  | Mean
  | Max
  | Sum
  | Weighted
deriving DecidableEq, Repr

/-- `EmbeddingConfig` of `embeddings.rs`. -/
structure EmbeddingConfig where
  dimension : ℕ
  normalize : Bool
  pooling_strategy : PoolingStrategy
deriving DecidableEq, Repr

/-- The `i`-th length-`dim` slice of a flat extended-float buffer. -/
def chunksOfE (dim : ℕ) (flat : List EFloat) (count : ℕ) : List (List EFloat) :=
  (List.range count).map (fun i => (flat.drop (i * dim)).take dim)

/-- The accumulation loop `for i in 0..count { result[j] += e[start+j] }`
starting from `vec![0.0; dim]`, as a fold of componentwise addition over the
slices. -/
def addRowsE (dim : ℕ) (rows : List (List EFloat)) : List EFloat :=
  rows.foldl (fun acc r => List.zipWith addE acc r) (List.replicate dim (.fin 0))

/-- `EmbeddingGenerator::pool_embeddings`: batch-size validation, then the
per-strategy aggregation (the `Weighted` arm of the source duplicates the
`Mean` arm), then optional normalization of the pooled vector. -/
def pool_embeddings (sq : ℚ → ℚ) (config : EmbeddingConfig)
    (embeddings : List EFloat) (count : ℕ) : Except String (List EFloat) :=
  if embeddings.length ≠ count * config.dimension then
    .error "Invalid embeddings batch"
  else
    let dim := config.dimension
    let rows := chunksOfE dim embeddings count
    let result := match config.pooling_strategy with
      | .Mean => (addRowsE dim rows).map (fun x => divE x (.fin (count : ℚ)))
      | .Max => rows.foldl (fun acc r => List.zipWith maxE acc r)
          (List.replicate dim .neginf)
      | .Sum => addRowsE dim rows
      | .Weighted => (addRowsE dim rows).map (fun x => divE x (.fin (count : ℚ)))
    .ok (if config.normalize then normalizeVectorE sq result else result)

/-- An operation of the Rust source can return a value, return an error, or
panic (abort); `EmbeddingStats::from_batch` panics on `dimension = 0`, where
`embeddings.len() / dimension` divides by zero. -/
inductive RustOutcome (α : Type) where
  | ok (a : α)
  | err (msg : String)
  | panic
deriving DecidableEq, Repr

/-- `EmbeddingStats` of `embeddings.rs`. -/
structure EmbeddingStats where
  mean : List EFloat
  std_dev : List EFloat
  min : List EFloat
  max : List EFloat
deriving DecidableEq, Repr

/-- `EmbeddingStats::from_batch`: `count = len / dimension` (a Rust integer
division that panics when `dimension = 0`), batch-size validation, then the
per-dimension mean, min, max and population standard deviation.  The single
accumulation loop of the source is rendered as one componentwise fold per
aggregate (the aggregates are mutually independent). -/
def EmbeddingStats.from_batch (sq : ℚ → ℚ) (embeddings : List EFloat)
    (dimension : ℕ) : RustOutcome EmbeddingStats :=
  if dimension = 0 then
    .panic
  else
    let count := embeddings.length / dimension
    if embeddings.length ≠ count * dimension then
      .err "Invalid embedding batch size"
    else
      let rows := chunksOfE dimension embeddings count
      let mean := (addRowsE dimension rows).map (fun x => divE x (.fin (count : ℚ)))
      let minV := rows.foldl (fun acc r => List.zipWith minE acc r)
          (List.replicate dimension .inf)
      let maxV := rows.foldl (fun acc r => List.zipWith maxE acc r)
          (List.replicate dimension .neginf)
      let sumsq := rows.foldl (fun acc r => List.zipWith addE acc
          (List.zipWith (fun x m => mulE (subE x m) (subE x m)) r mean))
          (List.replicate dimension (.fin 0))
      let std_dev := sumsq.map (fun v => sqrtE sq (divE v (.fin (count : ℚ))))
      .ok { mean := mean, std_dev := std_dev, min := minV, max := maxV }

/-- `SearchCache` of `mobile-core.rs`: bounded cache of
`(query, results, timestamp)` entries (`f64` timestamps as exact rationals). -/
structure SearchCache where
  max_size : ℕ
  cache : List (String × String × ℚ)
deriving DecidableEq, Repr

/-- `SearchCache::new`. -/
def SearchCache.new (max_size : ℕ) : SearchCache :=
  { max_size := max_size, cache := [] }

/-- `SearchCache::get`: linear scan, first entry whose query matches. -/
def SearchCache.get (c : SearchCache) (query : String) : Option String :=
  (c.cache.find? (fun e => e.1 == query)).map (fun e => e.2.1)

/-- The timestamp comparator `a.2.partial_cmp(&b.2).unwrap()` used by
`SearchCache::set` before evicting, as a boolean "may precede" relation. -/
def cacheLE (a b : String × String × ℚ) : Bool :=
  decide (a.2.2 ≤ b.2.2)

/-- `SearchCache::set`: drop any entry with the same query, append the new
entry, and when the cache is over capacity sort by timestamp (`sort_by` is a
stable sort) and remove the first (oldest) entry. -/
def SearchCache.set (c : SearchCache) (query val : String) (timestamp : ℚ) :
    SearchCache :=
  let retained := c.cache.filter (fun e => !(e.1 == query))
  let pushed := retained ++ [(query, val, timestamp)]
  if c.max_size < pushed.length then
    { c with cache := (pushed.mergeSort cacheLE).drop 1 }
  else
    { c with cache := pushed }

/-- At most one cache entry per distinct query key. -/
def DistinctKeys (l : List (String × String × ℚ)) : Prop :=
  l.Pairwise (fun a b => a.1 ≠ b.1)

/-! ## Round-trip error of the quantized store (C1) -/

/-- Pointwise round-trip: for a component in `[-1, 1]` the quantize/dequantize
round trip errs by strictly less than `2/255` (the quantization truncates, so
the error is not bounded by `1/255`). -/
theorem roundtrip_err (x : ℚ) (h1 : -1 ≤ x) (h2 : x ≤ 1) :
    |dequantizeByte (quantizeByte x) - x| < 2 / 255 := by
  have hc : min 1 (max (-1) x) = x := by
    rw [max_eq_right h1, min_eq_right h2]
  unfold quantizeByte dequantizeByte
  rw [hc]
  have ht0 : (0 : ℚ) ≤ (x + 1) * (255 / 2) := by nlinarith
  have hf0 : (0 : ℤ) ≤ ⌊(x + 1) * (255 / 2 : ℚ)⌋ := Int.floor_nonneg.mpr ht0
  have hcast : ((⌊(x + 1) * (255 / 2 : ℚ)⌋.toNat : ℚ)) = ((⌊(x + 1) * (255 / 2 : ℚ)⌋ : ℤ) : ℚ) := by
    exact_mod_cast congrArg (fun z : ℤ => (z : ℚ)) (Int.toNat_of_nonneg hf0)
  rw [hcast]
  have hlb : ((⌊(x + 1) * (255 / 2 : ℚ)⌋ : ℤ) : ℚ) ≤ (x + 1) * (255 / 2) :=
    Int.floor_le _
  have hub : (x + 1) * (255 / 2 : ℚ) < ((⌊(x + 1) * (255 / 2 : ℚ)⌋ : ℤ) : ℚ) + 1 :=
    Int.lt_floor_add_one _
  rw [abs_lt]
  constructor <;> nlinarith

/-- C1, counterexample: the component `-127/128` lies in `[-1, 1]`, is stored
by `add` and read back by `get` as exactly `-1`, and the round-trip error
`1/128` exceeds the claimed bound `1/255`. -/
theorem quantize_roundtrip_cex :
    (((CompressedVectorStore.new 1 8).add [-(127 / 128)]).1.get 0
        = Except.ok [(-1 : ℚ)]) ∧
    ¬ (|(-1 : ℚ) - (-(127 / 128))| ≤ 1 / 255) := by
  constructor
  · norm_num [CompressedVectorStore.new, CompressedVectorStore.add,
      CompressedVectorStore.get, quantizeByte, dequantizeByte]
  · norm_num [abs_le]

/-- C1 (amended): `add` followed by `get` of the new id returns a vector whose
per-component round-trip error is strictly below `2/255` (but not `1/255`),
for every vector whose components lie in `[-1, 1]`. -/
theorem compressed_roundtrip_bound (s : CompressedVectorStore) (v : List ℚ)
    (hinv : StoreInv s) (hlen : v.length = s.dimension)
    (hrange : ∀ x ∈ v, -1 ≤ x ∧ x ≤ 1) :
    (s.add v).2 = Except.ok () ∧
    ∃ w, (s.add v).1.get s.count = Except.ok w ∧
      List.Forall₂ (fun a b => |a - b| < 2 / 255) w v := by
  have hne : ¬ (v.length ≠ s.dimension) := by simp [hlen]
  refine ⟨by simp [CompressedVectorStore.add, hne], ?_⟩
  refine ⟨(v.map quantizeByte).map dequantizeByte, ?_, ?_⟩
  · have hlt : ¬ (((s.add v).1.count) ≤ s.count) := by
      simp [CompressedVectorStore.add, hne]
    simp only [CompressedVectorStore.add, hne, if_false, CompressedVectorStore.get]
    rw [if_neg (by simp)]
    have hdrop : ((s.vectors ++ v.map quantizeByte).drop (s.count * s.dimension))
        = v.map quantizeByte := by
      rw [← hinv, List.drop_left]
    simp only [hdrop]
    have htake : ((v.map quantizeByte).take s.dimension) = v.map quantizeByte := by
      apply List.take_of_length_le
      simp [hlen]
    rw [htake]
  · rw [List.map_map, List.forall₂_map_left_iff]
    rw [List.forall₂_same]
    intro x hx
    exact roundtrip_err x (hrange x hx).1 (hrange x hx).2

/-- C1, witness: the amended bound applied to the store of dimension 1 holding
the single vector `[0]`. -/
theorem compressed_roundtrip_bound_witness :
    ((CompressedVectorStore.new 1 8).add [(0 : ℚ)]).2 = Except.ok () ∧
    ∃ w, (((CompressedVectorStore.new 1 8).add [(0 : ℚ)]).1).get
        (CompressedVectorStore.new 1 8).count = Except.ok w ∧
      List.Forall₂ (fun a b => |a - b| < 2 / 255) w [(0 : ℚ)] :=
  compressed_roundtrip_bound (CompressedVectorStore.new 1 8) [0]
    (by rfl) (by rfl) (by norm_num)

/-- C8: every compressed-store operation preserves the buffer invariant
`len(buffer) = count * dimension`: `new` establishes it, `add` preserves it on
success and on failure, `get`, `memory_usage` and `count` do not mutate the
store, and under the invariant `memory_usage` returns exactly
`count * dimension`. -/
theorem compressed_store_invariant :
    ∀ (d cf : ℕ) (s : CompressedVectorStore) (v : List ℚ),
      StoreInv (CompressedVectorStore.new d cf) ∧
      (StoreInv s → StoreInv (s.add v).1) ∧
      (StoreInv s → s.memory_usage = s.count * s.dimension) := by
  intro d cf s v
  refine ⟨by simp [StoreInv, CompressedVectorStore.new], ?_, fun h => h⟩
  intro h
  by_cases hl : v.length ≠ s.dimension
  · simp [CompressedVectorStore.add, hl, h]
  · simp only [CompressedVectorStore.add, hl, if_false]
    simp only [StoreInv] at *
    push_neg at hl
    simp [hl, h]
    ring

/-! ## Normalization (C4) -/

/-- Dividing every component by `r` divides the sum of squares by `r * r`
(also true for `r = 0`, where both sides are `0`). -/
theorem sumSq_map_div (v : List ℚ) (r : ℚ) :
    sumSq (v.map (fun x => x / r)) = sumSq v / (r * r) := by
  induction v with
  | nil => simp [sumSq]
  | cons a t ih =>
    simp only [sumSq, List.map_cons, List.sum_cons] at *
    rw [ih, div_mul_div_comm, div_add_div_same]

/-- C4: `normalize_vector` leaves a vector of zero norm unchanged, and for a
vector of nonzero norm the magnitude of the result is exactly 1 — in
particular within `1e-4` of 1.  The square root `sq` is constrained by its
defining property at the one point where the code evaluates it; the magnitude
of the result is likewise quantified as the nonnegative `m` with
`m * m = sumSq (normalize_vector sq v)`. -/
theorem normalize_vector_spec (sq : ℚ → ℚ) (v : List ℚ)
    (hr : sq (sumSq v) * sq (sumSq v) = sumSq v) (hr0 : 0 ≤ sq (sumSq v)) :
    (sumSq v = 0 → normalize_vector sq v = v) ∧
    (sumSq v ≠ 0 → ∀ m : ℚ, 0 ≤ m → m * m = sumSq (normalize_vector sq v) →
      |m - 1| ≤ 1 / 10000) := by
  constructor
  · intro h0
    have : sq (sumSq v) = 0 := by
      have := hr
      rw [h0] at this
      nlinarith
    simp [normalize_vector, this]
  · intro hne m hm0 hm
    have hrpos : 0 < sq (sumSq v) := by
      rcases lt_or_eq_of_le hr0 with h | h
      · exact h
      · exfalso; apply hne; rw [← hr, ← h, mul_zero]
    rw [normalize_vector] at hm
    simp only [hrpos, if_pos] at hm
    rw [sumSq_map_div, hr, div_self hne] at hm
    have : (m - 1) * (m + 1) = 0 := by nlinarith
    rcases mul_eq_zero.mp this with h | h
    · have : m = 1 := by linarith
      simp [this]
    · exfalso; nlinarith

/-- C4, witness: normalizing `[3, 4]` (with the square root giving `5` at
`25`) yields a vector of magnitude exactly 1. -/
theorem normalize_vector_spec_witness :
    (sumSq [(3 : ℚ), 4] = 0 →
      normalize_vector (fun q => if q = 25 then 5 else 0) [3, 4] = [3, 4]) ∧
    (sumSq [(3 : ℚ), 4] ≠ 0 → ∀ m : ℚ, 0 ≤ m →
      m * m = sumSq (normalize_vector (fun q => if q = 25 then 5 else 0) [3, 4]) →
      |m - 1| ≤ 1 / 10000) :=
  normalize_vector_spec (fun q => if q = 25 then 5 else 0) [3, 4]
    (by norm_num [sumSq]) (by norm_num [sumSq])

/-! ## Insertion and batch insertion (C5) -/

/-- Every slice produced for a well-sized flat buffer has length `dim`. -/
theorem chunksOf_length (dim : ℕ) (flat : List ℚ) (count : ℕ)
    (h : flat.length = count * dim) :
    ∀ c ∈ chunksOf dim flat count, c.length = dim := by
  intro c hc
  simp only [chunksOf, List.mem_map, List.mem_range] at hc
  obtain ⟨i, hi, rfl⟩ := hc
  simp only [List.length_take, List.length_drop, h]
  have h2 : (i + 1) * dim ≤ count * dim := Nat.mul_le_mul_right dim hi
  have h3 : i * dim + dim ≤ count * dim := by
    calc i * dim + dim = (i + 1) * dim := by ring
    _ ≤ count * dim := h2
  omega

/-- When every row has the right length, the batch loop never fails and is the
sequential composition of the `add_vector` calls, in order. -/
theorem addLoop_ok (sq : ℚ → ℚ) (l : List (List ℚ)) :
    ∀ idx : VectorIndex, (∀ c ∈ l, c.length = idx.dimension) →
      addLoop sq idx l =
        (l.foldl (fun s c => (VectorIndex.add_vector sq s c).1) idx, Except.ok ()) := by
  induction l with
  | nil => intro idx _; rfl
  | cons c t ih =>
    intro idx h
    have hc : ¬ (c.length ≠ idx.dimension) := by
      simp [h c (List.mem_cons_self c t)]
    have hstep : VectorIndex.add_vector sq idx c =
        ({ idx with vectors := idx.vectors ++
            [if idx.metric = DistanceMetric.Cosine then normalize_vector sq c else c] },
          Except.ok idx.vectors.length) := by
      simp [VectorIndex.add_vector, hc]
    simp only [addLoop, hstep, List.foldl_cons]
    exact ih _ (fun c' hc' => h c' (List.mem_cons_of_mem _ hc'))

/-- C5: `add_vector` fails exactly on a length mismatch and leaves the index
unchanged on failure; `add_vectors_batch` fails exactly when the flat length
is not `count * dimension`, leaves the index unchanged on failure, and on
success is `count` sequential `add_vector` calls over the slices, in
insertion order (each applying the per-metric normalization rule inside
`add_vector`). -/
theorem add_vector_batch_spec :
    ∀ (sq : ℚ → ℚ) (idx : VectorIndex) (v flat : List ℚ) (count : ℕ),
      ((∃ e, (VectorIndex.add_vector sq idx v).2 = Except.error e) ↔
        v.length ≠ idx.dimension) ∧
      (v.length ≠ idx.dimension → (VectorIndex.add_vector sq idx v).1 = idx) ∧
      ((∃ e, (VectorIndex.add_vectors_batch sq idx flat count).2 = Except.error e) ↔
        flat.length ≠ count * idx.dimension) ∧
      (flat.length ≠ count * idx.dimension →
        (VectorIndex.add_vectors_batch sq idx flat count).1 = idx) ∧
      (flat.length = count * idx.dimension →
        VectorIndex.add_vectors_batch sq idx flat count =
          ((chunksOf idx.dimension flat count).foldl
            (fun s c => (VectorIndex.add_vector sq s c).1) idx, Except.ok ())) := by
  intro sq idx v flat count
  refine ⟨?_, ?_, ?_, ?_, ?_⟩
  · by_cases hl : v.length ≠ idx.dimension
    · simp [VectorIndex.add_vector, hl]
    · simp [VectorIndex.add_vector, hl]
  · intro hl
    simp [VectorIndex.add_vector, hl]
  · by_cases hb : flat.length ≠ count * idx.dimension
    · simp [VectorIndex.add_vectors_batch, hb]
    · push_neg at hb
      have := addLoop_ok sq (chunksOf idx.dimension flat count) idx
        (chunksOf_length idx.dimension flat count hb)
      simp [VectorIndex.add_vectors_batch, hb, this]
  · intro hb
    simp [VectorIndex.add_vectors_batch, hb]
  · intro hb
    have := addLoop_ok sq (chunksOf idx.dimension flat count) idx
      (chunksOf_length idx.dimension flat count hb)
    simp [VectorIndex.add_vectors_batch, hb, this]

/-! ## Search: result count, order and tie stability (C2, C3) -/

/-- The search comparator is transitive. -/
theorem searchLE_trans (rev : Bool) :
    ∀ a b c : SearchResult, searchLE rev a b → searchLE rev b c → searchLE rev a c := by
  intro a b c
  cases rev <;> simp only [searchLE, if_true, if_false, Bool.false_eq_true,
    decide_eq_true_eq] <;> intro h1 h2
  · exact le_trans h1 h2
  · exact le_trans h2 h1

/-- The search comparator is total (scores are ordered rationals here). -/
theorem searchLE_total (rev : Bool) :
    ∀ a b : SearchResult, searchLE rev a b || searchLE rev b a := by
  intro a b
  cases rev <;> simp [searchLE] <;> exact le_total _ _

/-- In the scored list built by `search`, the result at (zero-based) position
`n` carries id `n`: ids record insertion order. -/
theorem search_results_id (vectors : List (List ℚ)) (f : List ℚ → ℚ) :
    ∀ x ∈ (vectors.enum.map (fun p => SearchResult.mk p.1 (f p.2))).enum,
      x.2.id = x.1 := by
  intro x hx
  rw [List.mem_iff_getElem] at hx
  obtain ⟨i, hi, rfl⟩ := hx
  rw [List.getElem_enum]
  simp [List.getElem_map, List.getElem_enum]

/-- Stability of the sort used by `search` (`Vec::sort_by` is a stable merge
sort): when the input list carries strictly increasing ids, two results with
equal scores keep their id order in the sorted output. -/
theorem mergeSort_score_stable (rev : Bool) (L : List SearchResult)
    (hid : ∀ x ∈ L.enum, x.2.id = x.1) :
    (L.mergeSort (searchLE rev)).Pairwise
      (fun a b => a.score = b.score → a.id < b.id) := by
  rw [← List.mergeSort_enum]
  rw [List.pairwise_map]
  have H1 : (List.mergeSort L.enum (List.enumLE (searchLE rev))).Pairwise
      (fun x y => List.enumLE (searchLE rev) x y) :=
    List.sorted_mergeSort (List.enumLE_trans (searchLE_trans rev))
      (List.enumLE_total (searchLE_total rev)) _
  have hperm : List.Perm (List.mergeSort L.enum (List.enumLE (searchLE rev))) L.enum :=
    List.mergeSort_perm _ _
  have H2 : (List.mergeSort L.enum (List.enumLE (searchLE rev))).Pairwise
      (fun x y => x.1 ≠ y.1) := by
    refine (hperm.pairwise_iff (fun hxy => Ne.symm hxy)).mpr ?_
    have hnd : (L.enum.map Prod.fst).Nodup := by
      rw [List.enum_map_fst]; exact List.nodup_range _
    rw [List.Nodup, List.pairwise_map] at hnd
    exact hnd
  have H3 : ∀ x ∈ List.mergeSort L.enum (List.enumLE (searchLE rev)), x.2.id = x.1 := by
    intro x hx
    exact hid x (List.mem_mergeSort.mp hx)
  refine (H1.and H2).imp_of_mem ?_
  intro a b ha hb hab hscore
  have hle1 : searchLE rev a.2 b.2 = true := by
    cases rev <;> simp [searchLE, hscore.le, hscore.ge]
  have hle2 : searchLE rev b.2 a.2 = true := by
    cases rev <;> simp [searchLE, hscore.le, hscore.ge]
  have hfst : a.1 ≤ b.1 := by
    have h1 := hab.1
    simp only [List.enumLE, hle1, hle2, if_true, decide_eq_true_eq] at h1
    exact h1
  have hne := hab.2
  rw [H3 a ha, H3 b hb]
  omega

/-- Any successful `search` result is pairwise stable on ties: equal scores
appear in increasing id order. -/
theorem search_ok_tie_pairwise (sq : ℚ → ℚ) (idx : VectorIndex)
    (q : List ℚ) (k : ℕ) (res : List SearchResult)
    (h : VectorIndex.search sq idx q k = Except.ok res) :
    res.Pairwise (fun a b => a.score = b.score → a.id < b.id) := by
  rw [VectorIndex.search] at h
  by_cases hq : q.length ≠ idx.dimension
  · rw [if_pos hq] at h; cases h
  · rw [if_neg hq] at h
    by_cases he : idx.vectors.isEmpty
    · rw [if_pos he] at h
      cases h
      exact List.Pairwise.nil
    · rw [if_neg he] at h
      simp only [Except.ok.injEq] at h
      subst h
      refine List.Pairwise.sublist (List.take_sublist _ _) ?_
      exact mergeSort_score_stable _ _ (search_results_id _ _)

/-- C2 (amended): `search` uses a stable sort, so any two results with equal
scores appear in insertion order (increasing id) in the returned sequence. -/
theorem search_stable_insertion_order (sq : ℚ → ℚ) (idx : VectorIndex)
    (q : List ℚ) (k : ℕ) (res : List SearchResult)
    (h : VectorIndex.search sq idx q k = Except.ok res) :
    res.Pairwise (fun a b => a.score = b.score → a.id < b.id) :=
  search_ok_tie_pairwise sq idx q k res h

/-- C2, witness for the amended theorem: a search over two identical vectors
(a genuine score tie) returns the tied results in insertion order. -/
theorem search_stable_insertion_order_witness :
    List.Pairwise (fun a b => a.score = b.score → a.id < b.id)
      [SearchResult.mk 0 1, SearchResult.mk 1 1] := by
  refine search_stable_insertion_order (fun x => x)
    { vectors := [[1], [1]], dimension := 1, metric := DistanceMetric.DotProduct }
    [1] 5 [SearchResult.mk 0 1, SearchResult.mk 1 1] ?_
  have hm : (DistanceMetric.DotProduct = DistanceMetric.Cosine) = False := by decide
  rw [VectorIndex.search]
  norm_num [VectorIndex.search, compute_similarity, dot_product, List.enum,
    List.enumFrom, List.mergeSort, List.splitInTwo, List.splitAt, List.splitAt.go,
    List.merge, searchLE, hm]

/-- C2, counterexample to the claim as stated: there is no index, query and
`k` for which `search` succeeds and returns two equal-score results out of
insertion order — the reference implementation's `sort_by` is a stable sort,
so insertion-order tie-breaking is in fact guaranteed. -/
theorem search_tie_order_cex :
    ¬ ∃ (sq : ℚ → ℚ) (idx : VectorIndex) (q : List ℚ) (k : ℕ)
        (res : List SearchResult) (a b : SearchResult),
        VectorIndex.search sq idx q k = Except.ok res ∧
        List.Sublist [a, b] res ∧ a.score = b.score ∧ b.id < a.id := by
  rintro ⟨sq, idx, q, k, res, a, b, hs, hsub, hsc, hlt⟩
  have hp := search_ok_tie_pairwise sq idx q k res hs
  have hab := List.pairwise_iff_forall_sublist.mp hp hsub
  have := hab hsc
  omega

/-- C3: for a query of the index's dimension, `search` always succeeds; it
returns the empty sequence on an empty index, exactly `min k count` results
otherwise, sorted by descending score for the similarity metrics
(Cosine/DotProduct) and ascending score for the distance metrics
(Euclidean/Manhattan). -/
theorem search_length_and_order (sq : ℚ → ℚ) (idx : VectorIndex) (q : List ℚ)
    (k : ℕ) (h : q.length = idx.dimension) :
    ∃ res, VectorIndex.search sq idx q k = Except.ok res ∧
      res.length = min k idx.vectors.length ∧
      (idx.vectors = [] → res = []) ∧
      (searchReverse idx.metric = true →
        res.Pairwise (fun a b => b.score ≤ a.score)) ∧
      (searchReverse idx.metric = false →
        res.Pairwise (fun a b => a.score ≤ b.score)) := by
  rw [VectorIndex.search, if_neg (by simp [h])]
  by_cases he : idx.vectors.isEmpty
  · rw [if_pos he]
    rw [List.isEmpty_iff] at he
    refine ⟨[], rfl, ?_, fun _ => rfl, fun _ => List.Pairwise.nil,
      fun _ => List.Pairwise.nil⟩
    simp [he]
  · rw [if_neg he]
    refine ⟨_, rfl, ?_, ?_, ?_, ?_⟩
    · rw [List.length_take, List.length_mergeSort, List.length_map,
        List.enum_length, min_assoc, min_self]
    · intro hv
      rw [List.isEmpty_iff] at he
      exact absurd hv he
    · intro hrev
      refine List.Pairwise.sublist (List.take_sublist _ _) ?_
      refine (List.sorted_mergeSort (searchLE_trans (searchReverse idx.metric))
        (searchLE_total (searchReverse idx.metric)) _).imp ?_
      intro a b hab
      rw [hrev] at hab
      simpa [searchLE] using hab
    · intro hrev
      refine List.Pairwise.sublist (List.take_sublist _ _) ?_
      refine (List.sorted_mergeSort (searchLE_trans (searchReverse idx.metric))
        (searchLE_total (searchReverse idx.metric)) _).imp ?_
      intro a b hab
      rw [hrev] at hab
      simpa [searchLE] using hab

/-- C3, witness: searching two stored one-dimensional vectors with `k = 5`
returns both, in descending dot-product order. -/
theorem search_length_and_order_witness :
    ∃ res, VectorIndex.search (fun x => x)
        { vectors := [[2], [1]], dimension := 1, metric := DistanceMetric.DotProduct }
        [1] 5 = Except.ok res ∧
      res.length = min 5 ([[2], [1]] : List (List ℚ)).length ∧
      (([[2], [1]] : List (List ℚ)) = [] → res = []) ∧
      (searchReverse DistanceMetric.DotProduct = true →
        res.Pairwise (fun a b => b.score ≤ a.score)) ∧
      (searchReverse DistanceMetric.DotProduct = false →
        res.Pairwise (fun a b => a.score ≤ b.score)) :=
  search_length_and_order (fun x => x)
    { vectors := [[2], [1]], dimension := 1, metric := DistanceMetric.DotProduct }
    [1] 5 rfl

/-! ## Pooling (C6, C10) and statistics (C9) -/

/-- C6: `Weighted` pooling with no weights supplied is exactly `Mean`
pooling: the `Weighted` arm of the source duplicates the `Mean` arm, for
every batch, count, dimension and normalize setting. -/
theorem pool_weighted_eq_mean :
    ∀ (sq : ℚ → ℚ) (dim : ℕ) (nb : Bool) (embeddings : List EFloat) (count : ℕ),
      pool_embeddings sq ⟨dim, nb, PoolingStrategy.Weighted⟩ embeddings count =
        pool_embeddings sq ⟨dim, nb, PoolingStrategy.Mean⟩ embeddings count := by
  intro sq dim nb embeddings count
  rfl

/-- Adding a list of `NaN`s into a `NaN` accumulator stays `NaN`. -/
theorem foldl_addE_nan (l : List EFloat) : l.foldl addE .nan = .nan := by
  induction l with
  | nil => rfl
  | cons a t ih => simpa [addE] using ih

/-- Summing `n ≥ 1` copies of `NaN` from `0.0` gives `NaN`. -/
theorem sumE_replicate_nan (n : ℕ) :
    sumE (List.replicate (n + 1) EFloat.nan) = .nan := by
  rw [List.replicate_succ]
  simpa [sumE, addE] using foldl_addE_nan (List.replicate n .nan)

/-- Adding copies of `+∞` into a `+∞` accumulator stays `+∞`. -/
theorem foldl_addE_inf (l : List EFloat) (h : ∀ x ∈ l, x = EFloat.inf) :
    l.foldl addE .inf = .inf := by
  induction l with
  | nil => rfl
  | cons a t ih =>
    rw [h a (List.mem_cons_self a t)]
    exact ih fun x hx => h x (List.mem_cons_of_mem _ hx)

/-- Summing `n ≥ 1` copies of `+∞` from `0.0` gives `+∞`. -/
theorem sumE_replicate_inf (n : ℕ) :
    sumE (List.replicate (n + 1) EFloat.inf) = .inf := by
  rw [List.replicate_succ]
  show (List.replicate n EFloat.inf).foldl addE (addE (.fin 0) .inf) = .inf
  rw [show addE (.fin 0) .inf = .inf from rfl]
  exact foldl_addE_inf _ (fun x hx => List.eq_of_mem_replicate hx)

/-- Summing copies of `0.0` gives `0.0`. -/
theorem sumE_replicate_zero (n : ℕ) :
    sumE (List.replicate n (EFloat.fin 0)) = .fin 0 := by
  induction n with
  | zero => rfl
  | succ m ih =>
    rw [List.replicate_succ]
    simpa [sumE, addE] using ih

/-- Normalizing an all-`NaN` vector leaves it unchanged (the norm is `NaN`
and `NaN > 0` is false). -/
theorem normalizeVectorE_replicate_nan (sq : ℚ → ℚ) (n : ℕ) :
    normalizeVectorE sq (List.replicate n EFloat.nan) = List.replicate n .nan := by
  cases n with
  | zero => simp [normalizeVectorE]
  | succ m =>
    rw [normalizeVectorE]
    rw [List.map_replicate, show mulE .nan .nan = .nan from rfl,
      sumE_replicate_nan m]
    rfl

/-- Normalizing an all-`-∞` vector of positive length yields an all-`NaN`
vector: the norm is `+∞` and `-∞ / +∞ = NaN`. -/
theorem normalizeVectorE_replicate_neginf (sq : ℚ → ℚ) (n : ℕ) :
    normalizeVectorE sq (List.replicate (n + 1) EFloat.neginf)
      = List.replicate (n + 1) .nan := by
  rw [normalizeVectorE]
  rw [List.map_replicate, show mulE .neginf .neginf = .inf from rfl,
    sumE_replicate_inf n]
  rw [show sqrtE sq .inf = .inf from rfl]
  rw [show ltE (.fin 0) .inf = true from rfl]
  simp only [if_true, List.map_replicate]
  rfl

/-- Normalizing an all-zero vector leaves it all zero (whatever the square
root function returns at `0`): either the norm is not positive and the vector
is untouched, or it is positive and `0 / norm = 0`. -/
theorem normalizeVectorE_replicate_zero (sq : ℚ → ℚ) (n : ℕ) :
    normalizeVectorE sq (List.replicate n (EFloat.fin 0))
      = List.replicate n (.fin 0) := by
  rw [normalizeVectorE]
  rw [List.map_replicate, show mulE (.fin 0) (.fin 0) = .fin (0 * 0) from rfl]
  rw [show ((0 : ℚ) * 0) = 0 by ring, sumE_replicate_zero n]
  rw [show sqrtE sq (.fin 0) = .fin (sq 0) from by simp [sqrtE]]
  by_cases hsq : (0 : ℚ) < sq 0
  · rw [show ltE (.fin 0) (.fin (sq 0)) = true from by simp [ltE, hsq]]
    simp only [if_true, List.map_replicate]
    have : divE (.fin 0) (.fin (sq 0)) = .fin 0 := by
      have hne : sq 0 ≠ 0 := ne_of_gt hsq
      simp [divE, hne]
    rw [this]
  · rw [show ltE (.fin 0) (.fin (sq 0)) = false from by simp [ltE, hsq]]
    simp

/-- C10 (amended): an empty batch (`count = 0`, empty slice) passes the
batch-size validation and is never an error; the returned vector has length
`dimension` with every component `NaN` under `Mean` and `Weighted` and `0.0`
under `Sum`; under `Max` every component is `-∞` when normalization is off,
but `NaN` when normalization is on (the all-`-∞` vector has norm `+∞`, and
`-∞ / +∞ = NaN`). -/
theorem pool_empty_batch_spec :
    ∀ (sq : ℚ → ℚ) (dim : ℕ) (nb : Bool),
      pool_embeddings sq ⟨dim, nb, PoolingStrategy.Mean⟩ [] 0
        = .ok (List.replicate dim .nan) ∧
      pool_embeddings sq ⟨dim, nb, PoolingStrategy.Weighted⟩ [] 0
        = .ok (List.replicate dim .nan) ∧
      pool_embeddings sq ⟨dim, nb, PoolingStrategy.Sum⟩ [] 0
        = .ok (List.replicate dim (.fin 0)) ∧
      pool_embeddings sq ⟨dim, false, PoolingStrategy.Max⟩ [] 0
        = .ok (List.replicate dim .neginf) ∧
      pool_embeddings sq ⟨dim, true, PoolingStrategy.Max⟩ [] 0
        = .ok (List.replicate dim .nan) := by
  intro sq dim nb
  have hmean : pool_embeddings sq ⟨dim, nb, PoolingStrategy.Mean⟩ [] 0
      = .ok (List.replicate dim .nan) := by
    rw [pool_embeddings]
    rw [if_neg (by simp)]
    simp only [chunksOfE, List.range_zero, List.map_nil, addRowsE, List.foldl_nil,
      List.map_replicate]
    rw [show divE (.fin 0) (.fin ((0 : ℕ) : ℚ)) = .nan from by norm_num [divE]]
    cases nb
    · rfl
    · simp only [if_true]
      rw [normalizeVectorE_replicate_nan]
  refine ⟨hmean, ?_, ?_, ?_, ?_⟩
  · have hw : pool_embeddings sq ⟨dim, nb, PoolingStrategy.Weighted⟩ [] 0
        = pool_embeddings sq ⟨dim, nb, PoolingStrategy.Mean⟩ [] 0 := rfl
    rw [hw]
    exact hmean
  · rw [pool_embeddings]
    rw [if_neg (by simp)]
    simp only [chunksOfE, List.range_zero, List.map_nil, addRowsE, List.foldl_nil]
    cases nb
    · rfl
    · simp only [if_true]
      rw [normalizeVectorE_replicate_zero]
  · rw [pool_embeddings]
    rw [if_neg (by simp)]
    simp only [chunksOfE, List.range_zero, List.map_nil, List.foldl_nil]
    rfl
  · rw [pool_embeddings]
    rw [if_neg (by simp)]
    simp only [chunksOfE, List.range_zero, List.map_nil, List.foldl_nil, if_true]
    cases dim with
    | zero => simp [normalizeVectorE]
    | succ m => rw [normalizeVectorE_replicate_neginf]

/-- C10, counterexample to the claim as stated: with `Max` pooling, `count =
0`, dimension 1 and normalization on (a normalize setting the claim
quantifies over), the returned component is `NaN`, not the claimed `-∞`. -/
theorem pool_empty_max_cex :
    pool_embeddings (fun q => q) ⟨1, true, PoolingStrategy.Max⟩ [] 0
      = .ok [EFloat.nan] ∧ EFloat.nan ≠ EFloat.neginf := by
  constructor
  · rw [pool_embeddings]
    rw [if_neg (by simp)]
    simp only [chunksOfE, List.range_zero, List.map_nil, List.foldl_nil, if_true]
    rw [show (List.replicate 1 EFloat.neginf) = [EFloat.neginf] from rfl]
    rw [show normalizeVectorE (fun q => q) [EFloat.neginf] = [EFloat.nan] from
      normalizeVectorE_replicate_neginf (fun q => q) 0]
  · simp

/-- C9: `EmbeddingStats::from_batch` is total only for a positive dimension:
at `dimension = 0` it panics (the Rust `embeddings.len() / dimension` divides
by zero) for every input, returning neither statistics nor the documented
batch-size error, while for every positive dimension it never panics. -/
theorem from_batch_zero_dimension_panics :
    ∀ (sq : ℚ → ℚ) (embeddings : List EFloat) (d : ℕ),
      EmbeddingStats.from_batch sq embeddings 0 = .panic ∧
      (0 < d → EmbeddingStats.from_batch sq embeddings d ≠ RustOutcome.panic) := by
  intro sq e d
  constructor
  · rfl
  · intro hd
    rw [EmbeddingStats.from_batch, if_neg (by omega)]
    by_cases hb : e.length ≠ (e.length / d) * d
    · rw [if_pos hb]
      simp
    · rw [if_neg hb]
      simp

/-! ## The bounded search cache (C7) -/

/-- The timestamp comparator is transitive. -/
theorem cacheLE_trans : ∀ a b c : String × String × ℚ,
    cacheLE a b → cacheLE b c → cacheLE a c := by
  intro a b c
  simp only [cacheLE, decide_eq_true_eq]
  exact le_trans

/-- The timestamp comparator is total. -/
theorem cacheLE_total : ∀ a b : String × String × ℚ,
    cacheLE a b || cacheLE b a := by
  intro a b
  simp only [cacheLE, Bool.or_eq_true, decide_eq_true_eq]
  exact le_total _ _

/-- Removing the key then appending the fresh entry keeps keys distinct. -/
theorem distinctKeys_pushed (c : SearchCache) (key val : String) (t : ℚ)
    (h : DistinctKeys c.cache) :
    DistinctKeys ((c.cache.filter (fun e => !(e.1 == key))) ++ [(key, val, t)]) := by
  rw [DistinctKeys, List.pairwise_append]
  refine ⟨List.Pairwise.sublist (List.filter_sublist _) h, List.pairwise_singleton _ _, ?_⟩
  intro a ha b hb
  rw [List.mem_singleton] at hb
  subst hb
  have := (List.mem_filter.mp ha).2
  simp only [Bool.not_eq_eq_eq_not, Bool.not_true, beq_eq_false_iff_ne] at this
  exact this

/-- C7: `set` keeps at most one entry per distinct key; when the cache then
exceeds `max_size` it removes exactly one entry, and that entry has a minimal
timestamp among the just-updated entries; and in the concrete `max_size = 2`
scenario `set "a"`, `set "b"`, `set "c"` at increasing timestamps, `get "a"`
is `none` while `"b"` and `"c"` are still cached. -/
theorem searchCache_set_spec :
    ∀ (c : SearchCache) (key val : String) (t : ℚ),
      (DistinctKeys c.cache → DistinctKeys ((c.set key val t).cache)) ∧
      (c.max_size <
          ((c.cache.filter (fun e => !(e.1 == key))) ++ [(key, val, t)]).length →
        ∃ m, (∀ e ∈ (c.cache.filter (fun e => !(e.1 == key))) ++ [(key, val, t)],
            m.2.2 ≤ e.2.2) ∧
          List.Perm ((c.cache.filter (fun e => !(e.1 == key))) ++ [(key, val, t)])
            (m :: (c.set key val t).cache)) ∧
      ((((SearchCache.new 2).set "a" "1" 1).set "b" "2" 2).set "c" "3" 3).get "a"
        = none ∧
      ((((SearchCache.new 2).set "a" "1" 1).set "b" "2" 2).set "c" "3" 3).get "b"
        = some "2" ∧
      ((((SearchCache.new 2).set "a" "1" 1).set "b" "2" 2).set "c" "3" 3).get "c"
        = some "3" := by
  intro c key val t
  have h2 : ((SearchCache.new 2).set "a" "1" 1).set "b" "2" 2
      = { max_size := 2, cache := [("a", "1", (1 : ℚ)), ("b", "2", (2 : ℚ))] } := rfl
  have hs3 : ((((SearchCache.new 2).set "a" "1" 1).set "b" "2" 2).set "c" "3" 3).cache
      = [("b", "2", (2 : ℚ)), ("c", "3", (3 : ℚ))] := by
    rw [h2, SearchCache.set]
    rw [show List.filter (fun e => !(e.1 == "c"))
        [("a", "1", (1 : ℚ)), ("b", "2", (2 : ℚ))]
        = [("a", "1", (1 : ℚ)), ("b", "2", (2 : ℚ))] from rfl]
    norm_num [cacheLE, List.mergeSort,
      List.splitInTwo, List.splitAt, List.splitAt.go, List.merge]
  refine ⟨?_, ?_, ?_, ?_, ?_⟩
  · intro h
    have hpd := distinctKeys_pushed c key val t h
    rw [SearchCache.set]
    by_cases hover : c.max_size <
        ((c.cache.filter (fun e => !(e.1 == key))) ++ [(key, val, t)]).length
    · rw [if_pos hover]
      have hsd : DistinctKeys
          (((c.cache.filter (fun e => !(e.1 == key))) ++ [(key, val, t)]).mergeSort
            cacheLE) :=
        ((List.mergeSort_perm _ cacheLE).pairwise_iff (fun hxy => Ne.symm hxy)).mpr hpd
      exact List.Pairwise.sublist (List.drop_sublist _ _) hsd
    · rw [if_neg hover]
      exact hpd
  · intro hover
    rw [SearchCache.set, if_pos hover]
    have hperm : List.Perm
        (((c.cache.filter (fun e => !(e.1 == key))) ++ [(key, val, t)]).mergeSort
          cacheLE)
        ((c.cache.filter (fun e => !(e.1 == key))) ++ [(key, val, t)]) :=
      List.mergeSort_perm _ _
    have hne : ((c.cache.filter (fun e => !(e.1 == key))) ++ [(key, val, t)]).mergeSort
        cacheLE ≠ [] := by
      intro h0
      have := hperm.length_eq
      rw [h0] at this
      simp at this
    obtain ⟨m, rest, hm⟩ : ∃ m rest,
        ((c.cache.filter (fun e => !(e.1 == key))) ++ [(key, val, t)]).mergeSort
          cacheLE = m :: rest := by
      cases hsort : ((c.cache.filter (fun e => !(e.1 == key))) ++
          [(key, val, t)]).mergeSort cacheLE with
      | nil => exact absurd hsort hne
      | cons m rest => exact ⟨m, rest, rfl⟩
    refine ⟨m, ?_, ?_⟩
    · intro e he
      have hsorted := List.sorted_mergeSort cacheLE_trans cacheLE_total
        ((c.cache.filter (fun x => !(x.1 == key))) ++ [(key, val, t)])
      rw [hm] at hsorted
      have hmem : e ∈ ((c.cache.filter (fun x => !(x.1 == key))) ++
          [(key, val, t)]).mergeSort cacheLE := List.mem_mergeSort.mpr he
      rw [hm] at hmem
      rcases List.mem_cons.mp hmem with rfl | hr
      · exact le_refl _
      · have := (List.pairwise_cons.mp hsorted).1 e hr
        simpa [cacheLE] using this
    · have hdrop : (((c.cache.filter (fun e => !(e.1 == key))) ++
          [(key, val, t)]).mergeSort cacheLE).drop 1 = rest := by
        rw [hm]
        rfl
      rw [hdrop] at *
      rw [hm] at hperm
      exact (hperm.symm.trans (List.Perm.refl _))
  · rw [SearchCache.get, hs3]
    decide
  · rw [SearchCache.get, hs3]
    decide
  · rw [SearchCache.get, hs3]
    decide
